import Mathlib

/-!
# Verification of the huntd analytics engine

Shallow embedding of `huntd/analytics.py` (the analytics aggregation engine)
and proofs of the specification claims about it.

Modelling conventions:

* A point in time is represented by its *resolved local calendar day* as a
  proleptic Gregorian ordinal (`ℤ`, as in Python's `date.toordinal`), together
  with further fields only where a function reads them.  Ordinal 1 is a Monday,
  so Python's `date.weekday()` is `(d - 1) % 7` (Monday = 0 … Sunday = 6).
  The Python code's first step for every commit is to resolve the timestamp to
  a local datetime (`astimezone` when tz-aware, identity otherwise); the
  embedding works directly with the resolved value.
* `date.today()` / `datetime.now()` are passed explicitly as a `today`/`now`
  parameter (day granularity), making every function pure.
* Python `float` arithmetic on these small ratios is idealised by `ℚ`;
  `round(x, 1)` is embedded as round-half-to-even at one decimal over `ℚ`.
* Python dict/Counter iteration orders are embedded explicitly: `Counter`
  insertion order is first-occurrence order (`firstOccur`), `most_common` and
  `list.sort(reverse=True)` are a stable descending insertion sort
  (`sortByDesc`), and `sorted(...)`/sorted-key dicts use `Finset.sort`.
* ISO week keys `"YYYY-Www"` are represented by the ordinal of that week's
  Monday (`mondayOf`), a strictly monotone bijection from ISO weeks onto their
  Monday ordinals, so distinctness, counting and chronological ("YYYY-Www"
  lexicographic) order are preserved exactly.
-/

namespace Huntd

/-- One git commit (`huntd/git.py` `Commit`).  Of the source's fields the
analytics claims read only the resolved local calendar day of `timestamp` and
the `insertions`/`deletions` line counts; `hash`, `author`, `email`, `subject`,
`files_changed` and the local hour are never consulted by the claimed
computations and are omitted. -/
structure Commit where
  day : ℤ
  insertions : ℕ := 0
  deletions : ℕ := 0
deriving DecidableEq, Repr

/-- One file's delta within one commit (`huntd/git.py` `FileChange`), with
`timestamp` resolved to its local calendar day. -/
structure FileChange where
  hash : String := ""
  day : ℤ := 0
  path : String := ""
  ext : String := ""
  added : ℕ := 0
  removed : ℕ := 0
deriving DecidableEq, Repr

/-- Scan result for one repository (`huntd/git.py` `RepoInfo`); `last_commit`
is the optional local day of the last commit. -/
structure RepoInfo where
  path : String := ""
  name : String := ""
  branch_count : ℕ := 0
  last_commit : Option ℤ := none
  has_readme : Bool := false
  total_commits : ℕ := 0
  is_dirty : Bool := false
  commits : List Commit := []
  file_changes : List FileChange := []
deriving Repr

/-- Python's `date.weekday()`: Monday = 0 … Sunday = 6 (ordinal 1 is a
Monday). -/
def weekdayOf (d : ℤ) : ℤ := (d - 1) % 7

/-- Round-half-to-even of a rational to an integer (the rounding mode of
Python's `round`). -/
def halfEven (x : ℚ) : ℤ :=
  if x - x.floor < 1/2 then x.floor
  else if x - x.floor > 1/2 then x.floor + 1
  else if x.floor % 2 = 0 then x.floor else x.floor + 1

/-- Python's `round(x, 1)`: round to one decimal place, ties to even. -/
def round1 (x : ℚ) : ℚ := (halfEven (10 * x) : ℚ) / 10

/-- Recency tier of `compute_health_score` (`# Commit recency`): up to 40
points from `days_ago = (now - last).days`. -/
def recencyScore (now : ℤ) (last_commit : Option ℤ) : ℕ :=
  match last_commit with
  | none => 0
  | some last =>
    let days_ago := now - last
    if days_ago ≤ 7 then 40
    else if days_ago ≤ 30 then 30
    else if days_ago ≤ 90 then 20
    else if days_ago ≤ 365 then 10
    else 0

/-- Volume tier of `compute_health_score` (`# Total commits`): up to 20
points. -/
def volumeScore (total_commits : ℕ) : ℕ :=
  if total_commits ≥ 100 then 20
  else if total_commits ≥ 50 then 15
  else if total_commits ≥ 10 then 10
  else if total_commits ≥ 1 then 5
  else 0

/-- Branch-hygiene tier of `compute_health_score` (`# Branch hygiene`): up to
15 points. -/
def branchScore (branch_count : ℕ) : ℕ :=
  if 1 ≤ branch_count ∧ branch_count ≤ 5 then 15
  else if 6 ≤ branch_count ∧ branch_count ≤ 10 then 10
  else if branch_count > 10 then 5
  else 0

/-- `huntd/analytics.py` `compute_health_score`: 0-100 health score of a repo,
five additive tiers (recency 40, volume 20, README 15, branch hygiene 15,
clean tree 10).  `now` is the current UTC day; `days_ago` is the day
difference `(now - last)`. -/
def compute_health_score (now : ℤ) (repo : RepoInfo) : ℕ :=
  recencyScore now repo.last_commit
    + volumeScore repo.total_commits
    + (if repo.has_readme then 15 else 0)
    + branchScore repo.branch_count
    + (if repo.is_dirty = false ∧ repo.total_commits > 0 then 10 else 0)

theorem recencyScore_le (now : ℤ) (lc : Option ℤ) : recencyScore now lc ≤ 40 := by
  unfold recencyScore
  cases lc <;> dsimp only
  · omega
  · split_ifs <;> omega

theorem volumeScore_le (t : ℕ) : volumeScore t ≤ 20 := by
  unfold volumeScore
  split_ifs <;> omega

theorem branchScore_le (b : ℕ) : branchScore b ≤ 15 := by
  unfold branchScore
  split_ifs <;> omega

/-- A concrete healthy repository used to witness the maximal score. -/
def healthyRepo : RepoInfo :=
  { name := "r", branch_count := 3, last_commit := some 0,
    has_readme := true, total_commits := 120, is_dirty := false }

/-- C1: `compute_health_score` always returns a value in [0,100] (the result
type is ℕ, so 0 ≤ score is automatic), and a repo whose last commit is within
7 days of now, with at least 100 total commits, a README, 1-5 branches and a
clean working tree scores exactly 100. -/
theorem compute_health_score_spec (now : ℤ) (repo : RepoInfo) :
    compute_health_score now repo ≤ 100 ∧
    (∀ t, repo.last_commit = some t → now - t ≤ 7 →
      100 ≤ repo.total_commits → repo.has_readme = true →
      1 ≤ repo.branch_count → repo.branch_count ≤ 5 →
      repo.is_dirty = false → compute_health_score now repo = 100) := by
  constructor
  · have h1 := recencyScore_le now repo.last_commit
    have h2 := volumeScore_le repo.total_commits
    have h3 := branchScore_le repo.branch_count
    unfold compute_health_score
    split_ifs <;> omega
  · intro t hlast hrec hvol hreadme hbr1 hbr2 hdirty
    have h1 : recencyScore now repo.last_commit = 40 := by
      rw [hlast]; unfold recencyScore; dsimp only; rw [if_pos hrec]
    have h2 : volumeScore repo.total_commits = 20 := by
      unfold volumeScore; rw [if_pos hvol]
    have h3 : branchScore repo.branch_count = 15 := by
      unfold branchScore; rw [if_pos ⟨hbr1, hbr2⟩]
    unfold compute_health_score
    rw [h1, h2, h3, hreadme, if_pos rfl, if_pos ⟨hdirty, by omega⟩]

/-- Witness for C1 at a concrete repository. -/
theorem compute_health_score_spec_witness :
    compute_health_score 3 healthyRepo ≤ 100 ∧ compute_health_score 3 healthyRepo = 100 :=
  ⟨(compute_health_score_spec 3 healthyRepo).1,
   (compute_health_score_spec 3 healthyRepo).2 0 rfl (by decide) (by decide) rfl
     (by decide) (by decide) rfl⟩

/-- `huntd/analytics.py` `EXT_MAP` with its `.get(ext, ext)` fallback: the
static extension-to-language table; unknown extensions pass through. -/
def extMap (ext : String) : String :=
  match ext with
  | ".py" => "Python" | ".js" => "JavaScript" | ".ts" => "TypeScript"
  | ".jsx" => "React JSX" | ".tsx" => "React TSX"
  | ".go" => "Go" | ".rs" => "Rust" | ".rb" => "Ruby"
  | ".java" => "Java" | ".kt" => "Kotlin" | ".swift" => "Swift"
  | ".c" => "C" | ".cpp" => "C++" | ".h" => "C/C++ Header"
  | ".cs" => "C#" | ".php" => "PHP" | ".dart" => "Dart"
  | ".html" => "HTML" | ".css" => "CSS" | ".scss" => "SCSS"
  | ".json" => "JSON" | ".yaml" => "YAML" | ".yml" => "YAML"
  | ".toml" => "TOML" | ".xml" => "XML"
  | ".md" => "Markdown" | ".txt" => "Text"
  | ".sh" => "Shell" | ".bash" => "Shell" | ".zsh" => "Shell"
  | ".sql" => "SQL" | ".r" => "R" | ".lua" => "Lua"
  | ".ex" => "Elixir" | ".exs" => "Elixir" | ".erl" => "Erlang"
  | ".zig" => "Zig" | ".nim" => "Nim" | ".v" => "V"
  | ".sol" => "Solidity" | ".vue" => "Vue" | ".svelte" => "Svelte"
  | _ => ext

/-- The language a `FileChange` is attributed to (`EXT_MAP.get(fc.ext, fc.ext)`). -/
def langOf (fc : FileChange) : String := extMap fc.ext

/-- Keys of a Python `dict`/`Counter` in insertion order: each element at its
first occurrence, later duplicates dropped.  `seen` accumulates the elements
already emitted. -/
def firstOccurAux {α : Type} [DecidableEq α] (seen : List α) : List α → List α
  | [] => []
  | x :: xs =>
    if x ∈ seen then firstOccurAux seen xs
    else x :: firstOccurAux (x :: seen) xs

/-- Keys of a Python `dict`/`Counter` in insertion order. -/
def firstOccur {α : Type} [DecidableEq α] (l : List α) : List α :=
  firstOccurAux [] l

theorem mem_firstOccurAux {α : Type} [DecidableEq α] (l : List α) (seen : List α)
    (a : α) : a ∈ firstOccurAux seen l ↔ a ∈ l ∧ a ∉ seen := by
  induction l generalizing seen with
  | nil => simp [firstOccurAux]
  | cons x xs ih =>
    rw [firstOccurAux]
    split_ifs with hx
    · rw [ih]
      simp only [List.mem_cons]
      constructor
      · rintro ⟨h1, h2⟩
        exact ⟨Or.inr h1, h2⟩
      · rintro ⟨h1 | h1, h2⟩
        · subst h1; exact absurd hx h2
        · exact ⟨h1, h2⟩
    · simp only [List.mem_cons, ih]
      constructor
      · rintro (rfl | ⟨h1, h2⟩)
        · exact ⟨Or.inl rfl, hx⟩
        · exact ⟨Or.inr h1, fun hs => h2 (Or.inr hs)⟩
      · rintro ⟨rfl | h1, h2⟩
        · exact Or.inl rfl
        · by_cases hax : a = x
          · exact Or.inl hax
          · exact Or.inr ⟨h1, by simp [hax, h2]⟩

theorem mem_firstOccur {α : Type} [DecidableEq α] (l : List α) (a : α) :
    a ∈ firstOccur l ↔ a ∈ l := by
  rw [firstOccur, mem_firstOccurAux]
  simp

theorem nodup_firstOccurAux {α : Type} [DecidableEq α] (l : List α)
    (seen : List α) : (firstOccurAux seen l).Nodup := by
  induction l generalizing seen with
  | nil => simp [firstOccurAux]
  | cons x xs ih =>
    rw [firstOccurAux]
    split_ifs with hx
    · exact ih seen
    · refine List.Nodup.cons ?_ (ih (x :: seen))
      intro hmem
      exact ((mem_firstOccurAux _ _ _).1 hmem).2 (List.mem_cons_self x seen)

theorem nodup_firstOccur {α : Type} [DecidableEq α] (l : List α) :
    (firstOccur l).Nodup :=
  nodup_firstOccurAux l []

/-- Insert into a descending-by-key list, after all entries with an equal or
larger key (the placement a stable descending sort gives). -/
def insertDesc {α : Type} (key : α → ℕ) (x : α) : List α → List α
  | [] => [x]
  | y :: ys => if key y < key x then x :: y :: ys else y :: insertDesc key x ys

/-- Stable descending sort by a ℕ-valued key, the order `Counter.most_common`
and `list.sort(key=..., reverse=True)` produce. -/
def sortByDesc {α : Type} (key : α → ℕ) : List α → List α
  | [] => []
  | x :: xs => insertDesc key x (sortByDesc key xs)

theorem insertDesc_perm {α : Type} (key : α → ℕ) (x : α) (l : List α) :
    List.Perm (insertDesc key x l) (x :: l) := by
  induction l with
  | nil => rfl
  | cons y ys ih =>
    rw [insertDesc]
    split_ifs
    · rfl
    · exact ((ih.cons y).trans (List.Perm.swap x y ys))

theorem sortByDesc_perm {α : Type} (key : α → ℕ) (l : List α) :
    List.Perm (sortByDesc key l) l := by
  induction l with
  | nil => rfl
  | cons x xs ih =>
    rw [sortByDesc]
    exact (insertDesc_perm key x (sortByDesc key xs)).trans (ih.cons x)

theorem insertDesc_sorted {α : Type} (key : α → ℕ) (x : α) (l : List α)
    (h : l.Pairwise (fun a b => key b ≤ key a)) :
    (insertDesc key x l).Pairwise (fun a b => key b ≤ key a) := by
  induction l with
  | nil => simp [insertDesc]
  | cons y ys ih =>
    rw [insertDesc]
    rcases List.pairwise_cons.1 h with ⟨hy, hys⟩
    split_ifs with hlt
    · refine List.pairwise_cons.2 ⟨?_, h⟩
      intro b hb
      rcases List.mem_cons.1 hb with rfl | hb
      · omega
      · exact le_trans (hy b hb) (by omega)
    · refine List.pairwise_cons.2 ⟨?_, ih hys⟩
      intro b hb
      rcases List.mem_cons.1 ((insertDesc_perm key x ys).mem_iff.1 hb) with rfl | hb2
      · omega
      · exact hy b hb2

theorem sortByDesc_sorted {α : Type} (key : α → ℕ) (l : List α) :
    (sortByDesc key l).Pairwise (fun a b => key b ≤ key a) := by
  induction l with
  | nil => simp [sortByDesc]
  | cons x xs ih => exact insertDesc_sorted key x _ ih

/-- Total `added+removed` attributed to language `l` by a list of file
changes (one `Counter` bucket of `compute_languages`). -/
def langTotal (fcs : List FileChange) (l : String) : ℕ :=
  ((fcs.filter (fun fc => langOf fc = l)).map (fun fc => fc.added + fc.removed)).sum

/-- `huntd/analytics.py` `compute_languages`: per-language `added+removed`
totals as an association list in `Counter.most_common()` order (descending by
total, stable). -/
def compute_languages (fcs : List FileChange) : List (String × ℕ) :=
  sortByDesc (fun p => p.2)
    ((firstOccur (fcs.map langOf)).map (fun l => (l, langTotal fcs l)))

theorem sum_ite_key_not_mem {α : Type} [DecidableEq α] (a : α) (v : ℕ) (ks : List α)
    (h : a ∉ ks) :
    (ks.map (fun l => if a = l then v else 0)).sum = 0 := by
  induction ks with
  | nil => rfl
  | cons k ks ih =>
    simp only [List.mem_cons, not_or] at h
    simp [if_neg h.1, ih h.2]

theorem sum_ite_key_mem {α : Type} [DecidableEq α] (a : α) (v : ℕ) (ks : List α)
    (hnd : ks.Nodup) (h : a ∈ ks) :
    (ks.map (fun l => if a = l then v else 0)).sum = v := by
  induction ks with
  | nil => cases h
  | cons k ks ih =>
    rcases List.mem_cons.1 h with rfl | hmem
    · simp [sum_ite_key_not_mem a v ks (List.nodup_cons.1 hnd).1]
    · have hne : a ≠ k := by
        rintro rfl; exact (List.nodup_cons.1 hnd).1 hmem
      simp [if_neg hne, ih (List.nodup_cons.1 hnd).2 hmem]

theorem sum_map_addF {α : Type} (f g : α → ℕ) (l : List α) :
    (l.map fun x => f x + g x).sum = (l.map f).sum + (l.map g).sum := by
  induction l with
  | nil => rfl
  | cons x xs ih => simp only [List.map_cons, List.sum_cons, ih]; omega

theorem sum_langTotal_over_keys (fcs : List FileChange) (keys : List String)
    (hnd : keys.Nodup) (hcov : ∀ fc ∈ fcs, langOf fc ∈ keys) :
    (keys.map (langTotal fcs)).sum = (fcs.map (fun fc => fc.added + fc.removed)).sum := by
  induction fcs with
  | nil =>
    have h0 : langTotal ([] : List FileChange) = fun _ => 0 := by
      funext l; rfl
    simp [h0]
  | cons fc rest ih =>
    have hsplit : ∀ l, langTotal (fc :: rest) l
        = (if langOf fc = l then fc.added + fc.removed else 0) + langTotal rest l := by
      intro l
      unfold langTotal
      rw [List.filter_cons]
      by_cases hl : langOf fc = l
      · simp [hl]
      · simp [hl]
    have hmap : keys.map (langTotal (fc :: rest))
        = keys.map (fun l =>
            (if langOf fc = l then fc.added + fc.removed else 0) + langTotal rest l) := by
      exact List.map_congr_left (fun l _ => hsplit l)
    rw [hmap, sum_map_addF,
      sum_ite_key_mem _ _ _ hnd (hcov fc (List.mem_cons_self fc rest)),
      ih (fun g hg => hcov g (List.mem_cons_of_mem fc hg))]
    simp

/-- C7: the per-language totals of `compute_languages` sum to the total
`added+removed` over all input file changes, and the returned entries are
ordered by total descending. -/
theorem compute_languages_spec (fcs : List FileChange) :
    ((compute_languages fcs).map (fun p => p.2)).sum
        = (fcs.map (fun fc => fc.added + fc.removed)).sum ∧
    (compute_languages fcs).Pairwise (fun a b => b.2 ≤ a.2) := by
  constructor
  · have hperm : List.Perm ((compute_languages fcs).map (fun p => p.2))
        (((firstOccur (fcs.map langOf)).map (fun l => (l, langTotal fcs l))).map
            (fun p => p.2)) :=
      (sortByDesc_perm _ _).map _
    rw [hperm.sum_eq, List.map_map]
    have : ((fun p : String × ℕ => p.2) ∘ fun l => (l, langTotal fcs l))
        = langTotal fcs := rfl
    rw [this]
    refine sum_langTotal_over_keys fcs _ (nodup_firstOccur _) ?_
    intro fc hfc
    exact (mem_firstOccur _ _).2 (List.mem_map_of_mem langOf hfc)
  · exact sortByDesc_sorted _ _

theorem ratFloor_eq_intFloor (x : ℚ) : x.floor = ⌊x⌋ := by
  rw [Rat.floor_def', Rat.floor_def]

theorem abs_halfEven_sub_le (x : ℚ) : |(halfEven x : ℚ) - x| ≤ 1/2 := by
  have h1 : (⌊x⌋ : ℚ) ≤ x := Int.floor_le x
  have h2 : x < ⌊x⌋ + 1 := Int.lt_floor_add_one x
  unfold halfEven
  rw [ratFloor_eq_intFloor]
  split_ifs with ha hb hc
  all_goals rw [abs_le]; constructor <;> push_cast <;> linarith

theorem halfEven_eq_low (x : ℚ) (n : ℤ) (hf : ⌊x⌋ = n) (h : x - n < 1/2) :
    halfEven x = n := by
  unfold halfEven
  rw [ratFloor_eq_intFloor, hf, if_pos h]

theorem halfEven_eq_tie (x : ℚ) (n : ℤ) (hf : ⌊x⌋ = n) (h : x - n = 1/2)
    (he : n % 2 = 0) : halfEven x = n := by
  unfold halfEven
  rw [ratFloor_eq_intFloor, hf,
    if_neg (by rw [h]; norm_num), if_neg (by rw [h]; norm_num), if_pos he]

theorem round1_intCast (n : ℤ) : round1 (n : ℚ) = (n : ℚ) := by
  have hx : (10 : ℚ) * (n : ℚ) = ((10 * n : ℤ) : ℚ) := by push_cast; ring
  have hf : ⌊((10 * n : ℤ) : ℚ)⌋ = 10 * n := Int.floor_intCast _
  unfold round1
  rw [hx, halfEven_eq_low _ (10 * n) hf (by norm_num)]
  push_cast
  ring

theorem round1_one : round1 (1 : ℚ) = 1 := by
  have h := round1_intCast 1
  norm_num at h
  exact h

theorem round1_neg_one : round1 (-1 : ℚ) = -1 := by
  have h := round1_intCast (-1)
  norm_num at h
  exact h

theorem round1_tie_example : round1 ((41 : ℚ)/20) = 2 := by
  have hx : (10 : ℚ) * ((41 : ℚ)/20) = 41/2 := by norm_num
  have hf : ⌊((41 : ℚ)/2)⌋ = 20 := by
    rw [Int.floor_eq_iff]
    constructor <;> push_cast <;> norm_num
  unfold round1
  rw [hx, halfEven_eq_tie _ 20 hf (by push_cast; norm_num) (by decide)]
  norm_num

theorem abs_round1_sub_le (x : ℚ) : |round1 x - x| ≤ 1/20 := by
  have h := abs_halfEven_sub_le (10 * x)
  unfold round1
  rw [abs_le] at h ⊢
  constructor <;> linarith

/-- `huntd/analytics.py` `WorkdaySplit` (percentages idealised as ℚ). -/
structure WorkdaySplit where
  weekday_commits : ℕ := 0
  weekend_commits : ℕ := 0
  weekday_pct : ℚ := 0
  weekend_pct : ℚ := 0
  weekday_lines : ℕ := 0
  weekend_lines : ℕ := 0
deriving DecidableEq, Repr

/-- The branch test of `compute_workday_split`'s loop: `local.weekday() < 5`. -/
def isWeekday (c : Commit) : Bool := weekdayOf c.day < 5

/-- `huntd/analytics.py` `compute_workday_split`: partition commits into
weekday and weekend buckets; `divisor` embeds `total or 1`. -/
def compute_workday_split (commits : List Commit) : WorkdaySplit :=
  if commits = [] then {} else
  let weekday_commits := (commits.filter (fun c => isWeekday c)).length
  let weekend_commits := (commits.filter (fun c => !isWeekday c)).length
  let weekday_lines :=
    ((commits.filter (fun c => isWeekday c)).map (fun c => c.insertions + c.deletions)).sum
  let weekend_lines :=
    ((commits.filter (fun c => !isWeekday c)).map (fun c => c.insertions + c.deletions)).sum
  let total := weekday_commits + weekend_commits
  let divisor := if total = 0 then 1 else total
  { weekday_commits := weekday_commits,
    weekend_commits := weekend_commits,
    weekday_pct := round1 ((weekday_commits : ℚ) / divisor * 100),
    weekend_pct := round1 ((weekend_commits : ℚ) / divisor * 100),
    weekday_lines := weekday_lines,
    weekend_lines := weekend_lines }

theorem filter_split_length {α : Type} (p : α → Bool) (l : List α) :
    (l.filter p).length + (l.filter (fun a => !p a)).length = l.length := by
  induction l with
  | nil => rfl
  | cons x xs ih =>
    cases hp : p x <;> simp [List.filter_cons, hp] <;> omega

/-- C8: on non-empty input the weekday and weekend percentages sum to 100
within ±0.1; on empty input both are 0. -/
theorem compute_workday_split_spec (commits : List Commit) :
    (commits = [] → (compute_workday_split commits).weekday_pct = 0 ∧
      (compute_workday_split commits).weekend_pct = 0) ∧
    (commits ≠ [] →
      |(compute_workday_split commits).weekday_pct
        + (compute_workday_split commits).weekend_pct - 100| ≤ 1/10) := by
  constructor
  · intro h
    subst h
    exact ⟨rfl, rfl⟩
  · intro h
    rw [compute_workday_split, if_neg h]
    set wd := (commits.filter (fun c => isWeekday c)).length with hwd
    set we := (commits.filter (fun c => !isWeekday c)).length with hwe
    have hlen : wd + we = commits.length := filter_split_length _ commits
    have hpos : 0 < commits.length := List.length_pos.2 h
    have htot : ¬(wd + we = 0) := by omega
    dsimp only
    rw [if_neg htot]
    push_cast
    have hq : (wd : ℚ) + (we : ℚ) ≠ 0 := by
      have hpos2 : (0 : ℚ) < (wd : ℚ) + (we : ℚ) := by
        exact_mod_cast Nat.pos_of_ne_zero htot
      linarith
    have hsum : (wd : ℚ) / ((wd : ℚ) + (we : ℚ)) * 100
        + (we : ℚ) / ((wd : ℚ) + (we : ℚ)) * 100 = 100 := by
      field_simp
      ring
    have ha := abs_round1_sub_le ((wd : ℚ) / ((wd : ℚ) + (we : ℚ)) * 100)
    have hb := abs_round1_sub_le ((we : ℚ) / ((wd : ℚ) + (we : ℚ)) * 100)
    rw [abs_le] at ha hb ⊢
    constructor <;> linarith

/-- Witness for C8 at a one-commit list. -/
theorem compute_workday_split_spec_witness :
    |(compute_workday_split [{ day := 3 }]).weekday_pct
      + (compute_workday_split [{ day := 3 }]).weekend_pct - 100| ≤ 1/10 :=
  (compute_workday_split_spec [{ day := 3 }]).2 (List.cons_ne_nil _ _)

/-- Minimum local day of a list of commits (Python's `min(dates)`; the dedup
into a set does not change the minimum); 0 for the empty list, on which the
source never takes a minimum. -/
def minDay : List Commit → ℤ
  | [] => 0
  | c :: cs => cs.foldl (fun m x => min m x.day) c.day

/-- The divisor of `compute_activity_patterns`'s average:
`(date.today() - min(dates)).days or 1` — 1 is substituted only when the span
is exactly 0. -/
def activityDivisor (today : ℤ) (commits : List Commit) : ℤ :=
  if today - minDay commits = 0 then 1 else today - minDay commits

/-- The `avg_commits_per_day` field of `huntd/analytics.py`
`compute_activity_patterns`: commit count over the day span to today, rounded
to one decimal; 0 on empty input. -/
def avg_commits_per_day (today : ℤ) (commits : List Commit) : ℚ :=
  if commits = [] then 0
  else round1 ((commits.length : ℚ) / (activityDivisor today commits : ℚ))

/-- C4 counterexample: a single commit whose local date is one day after
"today" makes the code's divisor `(today - min).days or 1` equal to −1, not
at least 1, and the reported average −1.0 instead of the claimed
`round1 (1 / max span 1) = 1`. -/
theorem avg_commits_per_day_counterexample :
    activityDivisor 0 [{ day := 1 }] = -1 ∧
    ¬(1 ≤ activityDivisor 0 [{ day := 1 }]) ∧
    avg_commits_per_day 0 [{ day := 1 }] = -1 ∧
    round1 ((1 : ℚ) / ((max ((0 : ℤ) - 1) 1 : ℤ) : ℚ)) = 1 := by
  have hdiv : activityDivisor 0 [{ day := 1 }] = -1 := by decide
  refine ⟨hdiv, by rw [hdiv]; decide, ?_, ?_⟩
  · rw [avg_commits_per_day, if_neg (by decide), hdiv]
    have h1 : (([{ day := 1 }] : List Commit).length : ℚ) / ((-1 : ℤ) : ℚ) = -1 := by
      norm_num
    rw [h1, round1_neg_one]
  · rw [show (max ((0 : ℤ) - 1) 1) = 1 from by decide]
    have h1 : (1 : ℚ) / ((1 : ℤ) : ℚ) = 1 := by norm_num
    rw [h1, round1_one]

/-- C4 (amended): empty input gives 0; and whenever the earliest commit's
local date is not after today, the divisor is at least 1 and the average
equals the commit count divided by the day span with a minimum divisor of 1,
rounded to one decimal.  (The unamended claim's "divisor never less than 1
for every possible input" fails when the earliest commit is future-dated:
`or 1` only replaces a zero span, leaving negative spans untouched.) -/
theorem avg_commits_per_day_spec (today : ℤ) (commits : List Commit) :
    (commits = [] → avg_commits_per_day today commits = 0) ∧
    (minDay commits ≤ today →
      1 ≤ activityDivisor today commits ∧
      avg_commits_per_day today commits
        = (if commits = [] then 0
           else round1 ((commits.length : ℚ)
                  / ((max (today - minDay commits) 1 : ℤ) : ℚ)))) := by
  constructor
  · intro he
    rw [avg_commits_per_day, if_pos he]
  · intro hmin
    have hdiv : activityDivisor today commits = max (today - minDay commits) 1 := by
      unfold activityDivisor
      split_ifs with h0 <;> omega
    constructor
    · rw [hdiv]; omega
    · by_cases he : commits = []
      · rw [if_pos he, avg_commits_per_day, if_pos he]
      · rw [if_neg he, avg_commits_per_day, if_neg he, hdiv]

/-- Witness for C4's amended theorem at a concrete non-future input. -/
theorem avg_commits_per_day_spec_witness :
    1 ≤ activityDivisor 5 [{ day := 3 }] ∧
    avg_commits_per_day 5 [{ day := 3 }]
      = (if ([{ day := 3 }] : List Commit) = [] then 0
         else round1 ((([{ day := 3 }] : List Commit).length : ℚ)
                / ((max ((5 : ℤ) - minDay [{ day := 3 }]) 1 : ℤ) : ℚ))) :=
  (avg_commits_per_day_spec 5 [{ day := 3 }]).2 (by decide)

/-- `huntd/analytics.py` `FocusScore`; the `most_focused_day` /
`most_scattered_day` fields are never consulted by the claims and are
omitted. -/
structure FocusScore where
  avg_repos_per_day : ℚ := 0
  interp : String := ""
deriving DecidableEq, Repr

/-- All (local day, repo name) pairs of commits, the entries Python's
`day_repos` dict-of-sets is built from. -/
def dayRepoPairs (repos : List RepoInfo) : List (ℤ × String) :=
  (repos.map (fun r => r.commits.map (fun c => (c.day, r.name)))).flatten

/-- The active days (keys of `day_repos`). -/
def activeDays (repos : List RepoInfo) : Finset ℤ :=
  ((dayRepoPairs repos).map Prod.fst).toFinset

/-- Number of distinct repos with a commit on day `d` (`len(names)` for the
set of names in `day_repos[d]`). -/
def reposOnDay (repos : List RepoInfo) (d : ℤ) : ℕ :=
  ((((dayRepoPairs repos).filter (fun p => p.1 = d)).map Prod.snd).toFinset).card

/-- The unrounded mean `avg = sum(repos_per_day.values()) / len(repos_per_day)`
of `compute_focus_score`. -/
def focusAvg (repos : List RepoInfo) : ℚ :=
  (Finset.sum (activeDays repos) (fun d => (reposOnDay repos d : ℚ)))
    / ((activeDays repos).card : ℚ)

/-- `huntd/analytics.py` `compute_focus_score`: the reported average is the
mean rounded to one decimal, but the interpretation is chosen from the
*unrounded* mean.  `repos` empty or without commits means `day_repos` is
empty, giving the default result (both source early returns collapse to the
single test `dayRepoPairs repos = []`). -/
def compute_focus_score (repos : List RepoInfo) : FocusScore :=
  if dayRepoPairs repos = [] then {}
  else
    { avg_repos_per_day := round1 (focusAvg repos),
      interp :=
        if focusAvg repos ≤ 2 then "deep focus"
        else if focusAvg repos ≤ 5 then "balanced"
        else "scattered" }

/-- Input refuting C5: repos `r1`,`r2` commit on days 1-20 and `r3` only on
day 20, so the mean distinct-repo count is 41/20 = 2.05. -/
def ceFocusRepos : List RepoInfo :=
  [ { name := "r1", commits := (List.range 20).map (fun i => { day := (i : ℤ) + 1 }) },
    { name := "r2", commits := (List.range 20).map (fun i => { day := (i : ℤ) + 1 }) },
    { name := "r3", commits := [{ day := 20 }] } ]

/-- Scenario input of C5: one repo with 5 commits on 5 distinct dates. -/
def focusScenarioRepos : List RepoInfo :=
  [ { name := "solo", commits := [{ day := 1 }, { day := 2 }, { day := 3 },
      { day := 4 }, { day := 5 }] } ]

/-- C5 counterexample: the reported `avg_repos_per_day` is 2.0 (≤ 2), yet the
interpretation is "balanced", not "deep focus" — the classification uses the
unrounded mean 2.05, so it is not determined by the reported rounded value as
the claim states. -/
theorem focusAvg_ceFocusRepos : focusAvg ceFocusRepos = 41/20 := by
  have hcard : (activeDays ceFocusRepos).card = 20 := by decide
  have hsum : Finset.sum (activeDays ceFocusRepos) (fun d => reposOnDay ceFocusRepos d)
      = 41 := by decide
  unfold focusAvg
  rw [hcard]
  rw [show Finset.sum (activeDays ceFocusRepos) (fun d => (reposOnDay ceFocusRepos d : ℚ))
      = ((Finset.sum (activeDays ceFocusRepos) (fun d => reposOnDay ceFocusRepos d) : ℕ) : ℚ)
    from (Nat.cast_sum _ _).symm, hsum]
  norm_num

theorem compute_focus_score_counterexample :
    (compute_focus_score ceFocusRepos).avg_repos_per_day = 2 ∧
    (compute_focus_score ceFocusRepos).avg_repos_per_day ≤ 2 ∧
    (compute_focus_score ceFocusRepos).interp = "balanced" := by
  have hne : dayRepoPairs ceFocusRepos ≠ [] := by decide
  have havg : (compute_focus_score ceFocusRepos).avg_repos_per_day = 2 := by
    rw [compute_focus_score, if_neg hne]
    dsimp only
    rw [focusAvg_ceFocusRepos, round1_tie_example]
  refine ⟨havg, by rw [havg], ?_⟩
  rw [compute_focus_score, if_neg hne]
  dsimp only
  rw [if_neg (by rw [focusAvg_ceFocusRepos]; norm_num),
    if_pos (by rw [focusAvg_ceFocusRepos]; norm_num)]

/-- C5 (amended): the interpretation is determined by the *unrounded* mean of
the per-day distinct-repo counts — "deep focus" iff it is ≤ 2, "balanced" iff
it is in (2,5], "scattered" otherwise — while `avg_repos_per_day` reports
that mean rounded to one decimal (which may land on the other side of a
boundary); one repo with 5 commits on 5 distinct dates yields
`avg_repos_per_day = 1.0` and "deep focus". -/
theorem compute_focus_score_spec :
    (∀ repos, dayRepoPairs repos ≠ [] →
      ((compute_focus_score repos).interp = "deep focus" ↔ focusAvg repos ≤ 2) ∧
      ((compute_focus_score repos).interp = "balanced"
          ↔ (2 < focusAvg repos ∧ focusAvg repos ≤ 5)) ∧
      ((compute_focus_score repos).interp = "scattered" ↔ 5 < focusAvg repos) ∧
      (compute_focus_score repos).avg_repos_per_day = round1 (focusAvg repos)) ∧
    ((compute_focus_score focusScenarioRepos).avg_repos_per_day = 1 ∧
      (compute_focus_score focusScenarioRepos).interp = "deep focus") := by
  constructor
  · intro repos h
    rw [compute_focus_score, if_neg h]
    dsimp only
    by_cases h2 : focusAvg repos ≤ 2
    · rw [if_pos h2]
      exact ⟨⟨fun _ => h2, fun _ => rfl⟩,
        ⟨fun hc => absurd hc (by decide), fun hc => absurd h2 (not_le.2 hc.1)⟩,
        ⟨fun hc => absurd hc (by decide),
          fun hc => absurd h2 (not_le.2 (lt_trans (by norm_num) hc))⟩,
        rfl⟩
    · rw [if_neg h2]
      by_cases h5 : focusAvg repos ≤ 5
      · rw [if_pos h5]
        exact ⟨⟨fun hc => absurd hc (by decide), fun hc => absurd hc h2⟩,
          ⟨fun _ => ⟨not_le.1 h2, h5⟩, fun _ => rfl⟩,
          ⟨fun hc => absurd hc (by decide), fun hc => absurd h5 (not_le.2 hc)⟩,
          rfl⟩
      · rw [if_neg h5]
        exact ⟨⟨fun hc => absurd hc (by decide), fun hc => absurd hc h2⟩,
          ⟨fun hc => absurd hc (by decide), fun hc => absurd hc.2 h5⟩,
          ⟨fun _ => not_le.1 h5, fun _ => rfl⟩,
          rfl⟩
  · have hne : dayRepoPairs focusScenarioRepos ≠ [] := by decide
    have havg : focusAvg focusScenarioRepos = 1 := by
      have hcard : (activeDays focusScenarioRepos).card = 5 := by decide
      have hsum : Finset.sum (activeDays focusScenarioRepos)
          (fun d => reposOnDay focusScenarioRepos d) = 5 := by decide
      unfold focusAvg
      rw [hcard]
      rw [show Finset.sum (activeDays focusScenarioRepos)
            (fun d => (reposOnDay focusScenarioRepos d : ℚ))
          = ((Finset.sum (activeDays focusScenarioRepos)
              (fun d => reposOnDay focusScenarioRepos d) : ℕ) : ℚ)
        from (Nat.cast_sum _ _).symm, hsum]
      norm_num
    constructor
    · rw [compute_focus_score, if_neg hne]
      dsimp only
      rw [havg, round1_one]
    · rw [compute_focus_score, if_neg hne]
      dsimp only
      rw [if_pos (by rw [havg]; norm_num)]

/-- Witness for C5's amended theorem at the counterexample input. -/
theorem compute_focus_score_spec_witness :
    ((compute_focus_score ceFocusRepos).interp = "deep focus"
        ↔ focusAvg ceFocusRepos ≤ 2) ∧
    ((compute_focus_score ceFocusRepos).interp = "balanced"
        ↔ (2 < focusAvg ceFocusRepos ∧ focusAvg ceFocusRepos ≤ 5)) ∧
    ((compute_focus_score ceFocusRepos).interp = "scattered"
        ↔ 5 < focusAvg ceFocusRepos) ∧
    (compute_focus_score ceFocusRepos).avg_repos_per_day
        = round1 (focusAvg ceFocusRepos) :=
  compute_focus_score_spec.1 ceFocusRepos (by decide)

/-- The Monday ordinal of the ISO week containing day `d`.  ISO weeks are the
Monday-to-Sunday blocks of the calendar, and the `"YYYY-Www"` keys of
`compute_code_velocity` are in order-preserving bijection with the ordinals of
their Mondays, so week keys are embedded as those ordinals. -/
def mondayOf (d : ℤ) : ℤ := d - (d - 1) % 7

/-- The distinct ISO-week keys with at least one commit
(`commits_by_week.keys()`, in dict insertion order). -/
def weekKeysList (commits : List Commit) : List ℤ :=
  firstOccur (commits.map (fun c => mondayOf c.day))

/-- Ascending insertion into a sorted list. -/
def insertAsc (x : ℤ) : List ℤ → List ℤ
  | [] => [x]
  | y :: ys => if x ≤ y then x :: y :: ys else y :: insertAsc x ys

/-- Ascending sort (Python's `sorted`). -/
def sortAsc (l : List ℤ) : List ℤ := l.foldr insertAsc []

theorem insertAsc_perm (x : ℤ) (l : List ℤ) :
    List.Perm (insertAsc x l) (x :: l) := by
  induction l with
  | nil => rfl
  | cons y ys ih =>
    rw [insertAsc]
    split_ifs
    · rfl
    · exact ((ih.cons y).trans (List.Perm.swap x y ys))

theorem sortAsc_perm (l : List ℤ) : List.Perm (sortAsc l) l := by
  induction l with
  | nil => rfl
  | cons x xs ih =>
    show List.Perm (insertAsc x (sortAsc xs)) (x :: xs)
    exact (insertAsc_perm x (sortAsc xs)).trans (ih.cons x)

theorem insertAsc_sorted (x : ℤ) (l : List ℤ) (h : l.Pairwise (· ≤ ·)) :
    (insertAsc x l).Pairwise (· ≤ ·) := by
  induction l with
  | nil => simp [insertAsc]
  | cons y ys ih =>
    rw [insertAsc]
    rcases List.pairwise_cons.1 h with ⟨hy, hys⟩
    split_ifs with hle
    · refine List.pairwise_cons.2 ⟨?_, h⟩
      intro b hb
      rcases List.mem_cons.1 hb with rfl | hb2
      · exact hle
      · exact le_trans hle (hy b hb2)
    · refine List.pairwise_cons.2 ⟨?_, ih hys⟩
      intro b hb
      rcases List.mem_cons.1 ((insertAsc_perm x ys).mem_iff.1 hb) with rfl | hb2
      · omega
      · exact hy b hb2

theorem sortAsc_sorted (l : List ℤ) : (sortAsc l).Pairwise (· ≤ ·) := by
  induction l with
  | nil => simp [sortAsc]
  | cons x xs ih => exact insertAsc_sorted x _ ih

/-- `sorted(commits_by_week.keys())`: distinct week keys in chronological
(equally, lexicographic `"YYYY-Www"`) order. -/
def sortedWeeks (commits : List Commit) : List ℤ :=
  sortAsc (weekKeysList commits)

theorem sortedWeeks_nodup (commits : List Commit) : (sortedWeeks commits).Nodup :=
  (sortAsc_perm _).nodup_iff.2 (nodup_firstOccur _)

theorem sortedWeeks_sorted_lt (commits : List Commit) :
    (sortedWeeks commits).Pairwise (· < ·) := by
  have h1 := sortAsc_sorted (weekKeysList commits)
  have h2 := sortedWeeks_nodup commits
  exact (h1.and h2).imp (fun h => lt_of_le_of_ne h.1 h.2)

theorem mem_sortedWeeks (commits : List Commit) (w : ℤ) :
    w ∈ sortedWeeks commits ↔ ∃ c ∈ commits, mondayOf c.day = w := by
  rw [sortedWeeks, (sortAsc_perm _).mem_iff, weekKeysList, mem_firstOccur,
    List.mem_map]

/-- Commit count of one week bucket (`commits_by_week[key]`). -/
def weekCount (commits : List Commit) (w : ℤ) : ℕ :=
  commits.countP (fun c => mondayOf c.day = w)

/-- Line count of one week bucket (`lines_by_week[key]`). -/
def weekLines (commits : List Commit) (w : ℤ) : ℕ :=
  ((commits.filter (fun c => mondayOf c.day = w)).map
    (fun c => c.insertions + c.deletions)).sum

/-- Python's `max(iterable, key=f)` over `best :: ws`: scan left to right,
replacing the best only on a strictly greater key, so the first maximal
element wins. -/
def firstMaxBy (f : ℤ → ℕ) : List ℤ → ℤ → ℤ
  | [], best => best
  | w :: ws, best => firstMaxBy f ws (if f best < f w then w else best)

/-- Mean commit count of the 4 most recent weeks (`recent_avg`). -/
def recentAvg (commits : List Commit) : ℚ :=
  ((((sortedWeeks commits).drop ((sortedWeeks commits).length - 4)).map
    (weekCount commits)).sum : ℚ) / 4

/-- Mean commit count of the 4 weeks preceding those (`prior_avg`,
`sorted_weeks[-8:-4]`). -/
def priorAvg (commits : List Commit) : ℚ :=
  (((((sortedWeeks commits).drop ((sortedWeeks commits).length - 8)).take 4).map
    (weekCount commits)).sum : ℚ) / 4

/-- `huntd/analytics.py` `CodeVelocity`; week keys are Monday ordinals and
`peak_week` uses `none` for the empty-input default `""`. -/
structure CodeVelocity where
  commits_by_week : List (ℤ × ℕ) := []
  lines_by_week : List (ℤ × ℕ) := []
  trend : String := "stable"
  peak_week : Option ℤ := none
  peak_commits : ℕ := 0
deriving DecidableEq, Repr

/-- `huntd/analytics.py` `compute_code_velocity`: group commits by ISO week,
pick the first week of maximal count as peak (`max` over the
chronologically sorted dict), and classify the trend of the last 4 weeks
against the prior 4 (ratio ≥ 1.15 up, ≤ 0.85 down, otherwise stable; fewer
than 8 weeks or a non-positive prior mean stays stable).  The `[]` branch of
the inner match is unreachable for non-empty input. -/
def compute_code_velocity (commits : List Commit) : CodeVelocity :=
  if commits = [] then {}
  else
    { commits_by_week := (sortedWeeks commits).map (fun w => (w, weekCount commits w)),
      lines_by_week := (sortedWeeks commits).map (fun w => (w, weekLines commits w)),
      trend :=
        if 8 ≤ (sortedWeeks commits).length then
          if 0 < priorAvg commits then
            if recentAvg commits / priorAvg commits ≥ 115/100 then "up"
            else if recentAvg commits / priorAvg commits ≤ 85/100 then "down"
            else "stable"
          else "stable"
        else "stable",
      peak_week := some (match sortedWeeks commits with
        | [] => 0
        | w :: ws => firstMaxBy (weekCount commits) ws w),
      peak_commits := weekCount commits (match sortedWeeks commits with
        | [] => 0
        | w :: ws => firstMaxBy (weekCount commits) ws w) }

theorem weekCount_pos (commits : List Commit) (w : ℤ)
    (h : w ∈ sortedWeeks commits) : 0 < weekCount commits w := by
  rw [mem_sortedWeeks] at h
  obtain ⟨c, hc, hcw⟩ := h
  exact List.countP_pos_iff.2 ⟨c, hc, by simp [hcw]⟩

theorem length_le_sum_map (f : ℤ → ℕ) (l : List ℤ) (h : ∀ w ∈ l, 1 ≤ f w) :
    l.length ≤ (l.map f).sum := by
  induction l with
  | nil => simp
  | cons x xs ih =>
    simp only [List.map_cons, List.sum_cons, List.length_cons]
    have hx := h x (List.mem_cons_self x xs)
    have hxs := ih (fun w hw => h w (List.mem_cons_of_mem x hw))
    omega

theorem priorAvg_pos (commits : List Commit)
    (h8 : 8 ≤ (sortedWeeks commits).length) : 0 < priorAvg commits := by
  have hsub : ∀ w ∈ ((sortedWeeks commits).drop
      ((sortedWeeks commits).length - 8)).take 4, w ∈ sortedWeeks commits :=
    fun w hw => List.mem_of_mem_drop (List.mem_of_mem_take hw)
  have hlen : (((sortedWeeks commits).drop
      ((sortedWeeks commits).length - 8)).take 4).length = 4 := by
    simp only [List.length_take, List.length_drop]
    omega
  have hsum : 4 ≤ ((((sortedWeeks commits).drop
      ((sortedWeeks commits).length - 8)).take 4).map (weekCount commits)).sum := by
    have := length_le_sum_map (weekCount commits) _
      (fun w hw => weekCount_pos commits w (hsub w hw))
    omega
  rw [priorAvg]
  have hq : (0 : ℚ) < ((((sortedWeeks commits).drop
      ((sortedWeeks commits).length - 8)).take 4).map (weekCount commits)).sum := by
    exact_mod_cast lt_of_lt_of_le (by norm_num) hsum
  positivity

/-- C6: with fewer than 8 distinct commit weeks the trend is "stable"
regardless of volume; with at least 8 weeks the trend is "up" iff the mean
of the 4 most recent weeks is ≥ 1.15 times the mean of the preceding 4,
"down" iff it is ≤ 0.85 times it, and "stable" otherwise (the prior mean is
positive whenever 8 weeks exist, so the "prior mean 0" guard never
fires). -/
theorem compute_code_velocity_trend_spec (commits : List Commit) :
    ((sortedWeeks commits).length < 8 →
      (compute_code_velocity commits).trend = "stable") ∧
    (8 ≤ (sortedWeeks commits).length →
      (((compute_code_velocity commits).trend = "up"
          ↔ (115/100 : ℚ) * priorAvg commits ≤ recentAvg commits) ∧
       ((compute_code_velocity commits).trend = "down"
          ↔ recentAvg commits ≤ (85/100 : ℚ) * priorAvg commits) ∧
       ((compute_code_velocity commits).trend = "stable"
          ↔ (¬((115/100 : ℚ) * priorAvg commits ≤ recentAvg commits) ∧
             ¬(recentAvg commits ≤ (85/100 : ℚ) * priorAvg commits))))) := by
  constructor
  · intro hlt
    by_cases hne : commits = []
    · subst hne; rfl
    · rw [compute_code_velocity, if_neg hne]
      dsimp only
      rw [if_neg (by omega)]
  · intro h8
    have hne : commits ≠ [] := by
      intro hc
      rw [hc] at h8
      have h0 : sortedWeeks ([] : List Commit) = [] := by
        rw [sortedWeeks, weekKeysList, List.map_nil, firstOccur, firstOccurAux,
          sortAsc, List.foldr_nil]
      rw [h0] at h8
      simp at h8
    have hp : 0 < priorAvg commits := priorAvg_pos commits h8
    have hup : recentAvg commits / priorAvg commits ≥ 115/100
        ↔ (115/100 : ℚ) * priorAvg commits ≤ recentAvg commits := by
      rw [ge_iff_le, le_div_iff₀ hp, mul_comm]
    have hdn : recentAvg commits / priorAvg commits ≤ 85/100
        ↔ recentAvg commits ≤ (85/100 : ℚ) * priorAvg commits := by
      rw [div_le_iff₀ hp, mul_comm]
    rw [compute_code_velocity, if_neg hne]
    dsimp only
    rw [if_pos h8, if_pos hp]
    by_cases hu : recentAvg commits / priorAvg commits ≥ 115/100
    · rw [if_pos hu]
      have hnd : ¬(recentAvg commits ≤ (85/100 : ℚ) * priorAvg commits) := by
        rw [← hdn]
        rw [ge_iff_le, le_div_iff₀ hp] at hu
        intro hc
        rw [div_le_iff₀ hp] at hc
        nlinarith
      exact ⟨⟨fun _ => hup.1 hu, fun _ => rfl⟩,
        ⟨fun hc => absurd hc (by decide), fun hc => absurd hc hnd⟩,
        ⟨fun hc => absurd hc (by decide),
          fun hc => absurd (hup.1 hu) hc.1⟩⟩
    · rw [if_neg hu]
      by_cases hd : recentAvg commits / priorAvg commits ≤ 85/100
      · rw [if_pos hd]
        exact ⟨⟨fun hc => absurd hc (by decide), fun hc => absurd (hup.2 hc) hu⟩,
          ⟨fun _ => hdn.1 hd, fun _ => rfl⟩,
          ⟨fun hc => absurd hc (by decide), fun hc => absurd (hdn.1 hd) hc.2⟩⟩
      · rw [if_neg hd]
        exact ⟨⟨fun hc => absurd hc (by decide), fun hc => absurd (hup.2 hc) hu⟩,
          ⟨fun hc => absurd hc (by decide), fun hc => absurd (hdn.2 hc) hd⟩,
          ⟨fun _ => ⟨fun hc => hu (hup.2 hc), fun hc => hd (hdn.2 hc)⟩,
            fun _ => rfl⟩⟩

/-- Witness for C6 at the spec's scenario: commits in exactly 3 distinct
weeks give a "stable" trend. -/
theorem compute_code_velocity_trend_spec_witness :
    (compute_code_velocity [{ day := 1 }, { day := 8 }, { day := 15 }]).trend
      = "stable" :=
  (compute_code_velocity_trend_spec [{ day := 1 }, { day := 8 }, { day := 15 }]).1
    (by decide)

theorem firstMaxBy_spec (f : ℤ → ℕ) (ws : List ℤ) (best : ℤ)
    (hgt : ∀ w ∈ ws, best < w) (hchain : ws.Pairwise (· < ·)) :
    (firstMaxBy f ws best = best ∨ firstMaxBy f ws best ∈ ws) ∧
    f best ≤ f (firstMaxBy f ws best) ∧
    (∀ w ∈ ws, f w ≤ f (firstMaxBy f ws best)) ∧
    (∀ w, (w = best ∨ w ∈ ws) → f w = f (firstMaxBy f ws best) →
      firstMaxBy f ws best ≤ w) := by
  induction ws generalizing best with
  | nil =>
    refine ⟨Or.inl rfl, le_refl _, by simp, ?_⟩
    rintro w (rfl | hw) _
    · exact le_refl w
    · cases hw
  | cons w1 ws ih =>
    rw [firstMaxBy]
    rcases List.pairwise_cons.1 hchain with ⟨h1, hch⟩
    set best' := if f best < f w1 then w1 else best with hbest'
    have hgt' : ∀ w ∈ ws, best' < w := by
      intro w hw
      rw [hbest']
      split_ifs
      · exact h1 w hw
      · exact lt_trans (hgt w1 (List.mem_cons_self _ _)) (h1 w hw)
    obtain ⟨ihm, ihb, ihall, ihmin⟩ := ih best' hgt' hch
    have hb'ge : f best ≤ f best' := by
      rw [hbest']
      split_ifs with hlt
      · omega
      · exact le_refl _
    have hw1le : f w1 ≤ f best' := by
      rw [hbest']
      split_ifs with hlt
      · exact le_refl _
      · omega
    refine ⟨?_, le_trans hb'ge ihb, ?_, ?_⟩
    · rcases ihm with hr | hr
      · by_cases hlt : f best < f w1
        · have hbw : best' = w1 := by rw [hbest', if_pos hlt]
          refine Or.inr ?_
          rw [hr, hbw]
          exact List.mem_cons_self w1 ws
        · have hbw : best' = best := by rw [hbest', if_neg hlt]
          exact Or.inl (hr.trans hbw)
      · exact Or.inr (List.mem_cons_of_mem w1 hr)
    · intro w hw
      rcases List.mem_cons.1 hw with rfl | hw2
      · exact le_trans hw1le ihb
      · exact ihall w hw2
    · intro w hw heq
      rcases hw with hww | hw2
      · by_cases hlt : f best < f w1
        · exfalso
          have hle : f best' ≤ f (firstMaxBy f ws best') := ihb
          have hbw : best' = w1 := by rw [hbest', if_pos hlt]
          rw [hbw] at hle
          rw [hww] at heq
          omega
        · have hbw : best' = best := by rw [hbest', if_neg hlt]
          exact ihmin w (Or.inl (hww.trans hbw.symm)) heq
      · rcases List.mem_cons.1 hw2 with hww | hw3
        · by_cases hlt : f best < f w1
          · have hbw : best' = w1 := by rw [hbest', if_pos hlt]
            exact ihmin w (Or.inl (hww.trans hbw.symm)) heq
          · have hbw : best' = best := by rw [hbest', if_neg hlt]
            have h3 : f best = f (firstMaxBy f ws best') := by
              have hle : f best' ≤ f (firstMaxBy f ws best') := ihb
              rw [hbw] at hle
              rw [hww] at heq
              omega
            have hr2 := ihmin best (Or.inl hbw.symm) h3
            refine le_trans hr2 ?_
            rw [hww]
            exact le_of_lt (hgt w1 (List.mem_cons_self _ _))
        · exact ihmin w (Or.inr hw3) heq

/-- C10: `peak_week` is the chronologically earliest week attaining the
maximal commit count (Python's `max` over the sorted week keys keeps the
first maximal key), and `peak_commits` is that week's commit count. -/
theorem compute_code_velocity_peak_spec (commits : List Commit)
    (h : commits ≠ []) :
    ∃ pw, (compute_code_velocity commits).peak_week = some pw ∧
      pw ∈ sortedWeeks commits ∧
      (compute_code_velocity commits).peak_commits = weekCount commits pw ∧
      (∀ w ∈ sortedWeeks commits, weekCount commits w ≤ weekCount commits pw) ∧
      (∀ w ∈ sortedWeeks commits, weekCount commits w = weekCount commits pw →
        pw ≤ w) := by
  have hsne : sortedWeeks commits ≠ [] := by
    obtain ⟨c, cs, hcc⟩ := List.exists_cons_of_ne_nil h
    have hmem : mondayOf c.day ∈ sortedWeeks commits :=
      (mem_sortedWeeks _ _).2 ⟨c, by rw [hcc]; exact List.mem_cons_self c cs, rfl⟩
    exact List.ne_nil_of_mem hmem
  obtain ⟨w, ws, hws⟩ := List.exists_cons_of_ne_nil hsne
  have hsorted := sortedWeeks_sorted_lt commits
  rw [hws] at hsorted
  rcases List.pairwise_cons.1 hsorted with ⟨h1, hch⟩
  obtain ⟨hm, hb, hall, hmin⟩ := firstMaxBy_spec (weekCount commits) ws w h1 hch
  refine ⟨firstMaxBy (weekCount commits) ws w, ?_, ?_, ?_, ?_, ?_⟩
  · rw [compute_code_velocity, if_neg h]
    dsimp only
    rw [hws]
  · rw [hws]
    rcases hm with hr | hr
    · rw [hr]
      exact List.mem_cons_self w ws
    · exact List.mem_cons_of_mem w hr
  · rw [compute_code_velocity, if_neg h]
    dsimp only
    rw [hws]
  · intro w' hw'
    rw [hws] at hw'
    rcases List.mem_cons.1 hw' with rfl | hw2
    · exact hb
    · exact hall w' hw2
  · intro w' hw' heq
    rw [hws] at hw'
    rcases List.mem_cons.1 hw' with rfl | hw2
    · exact hmin w' (Or.inl rfl) heq
    · exact hmin w' (Or.inr hw2) heq

/-- Witness for C10 at two commits in distinct tied weeks: the earlier week
(Monday ordinal 1) wins. -/
theorem compute_code_velocity_peak_spec_witness :
    ∃ pw, (compute_code_velocity [{ day := 1 }, { day := 8 }]).peak_week = some pw ∧
      pw ∈ sortedWeeks [{ day := 1 }, { day := 8 }] ∧
      (compute_code_velocity [{ day := 1 }, { day := 8 }]).peak_commits
        = weekCount [{ day := 1 }, { day := 8 }] pw ∧
      (∀ w ∈ sortedWeeks [{ day := 1 }, { day := 8 }],
        weekCount [{ day := 1 }, { day := 8 }] w
          ≤ weekCount [{ day := 1 }, { day := 8 }] pw) ∧
      (∀ w ∈ sortedWeeks [{ day := 1 }, { day := 8 }],
        weekCount [{ day := 1 }, { day := 8 }] w
            = weekCount [{ day := 1 }, { day := 8 }] pw → pw ≤ w) :=
  compute_code_velocity_peak_spec [{ day := 1 }, { day := 8 }]
    (List.cons_ne_nil _ _)

/-- `huntd/analytics.py` `FileHotspot`. -/
structure FileHotspot where
  path : String
  churn : ℕ
  touches : ℕ
deriving DecidableEq, Repr

/-- The `"{repo.name}/{fc.path}"` key of `compute_file_hotspots`. -/
def hotspotKey (r : RepoInfo) (fc : FileChange) : String :=
  r.name ++ "/" ++ fc.path

/-- All (key, commit hash, added+removed) triples scanned by
`compute_file_hotspots`'s loop. -/
def hotspotEntries (repos : List RepoInfo) : List (String × String × ℕ) :=
  (repos.map (fun r => r.file_changes.map
    (fun fc => (hotspotKey r fc, fc.hash, fc.added + fc.removed)))).flatten

/-- `churn_map[p]`: accumulated `added+removed` for key `p`. -/
def churnOf (repos : List RepoInfo) (p : String) : ℕ :=
  (((hotspotEntries repos).filter (fun e => e.1 = p)).map (fun e => e.2.2)).sum

/-- `len(touch_map[p])`: number of distinct commit hashes touching key `p`. -/
def touchesOf (repos : List RepoInfo) (p : String) : ℕ :=
  ((((hotspotEntries repos).filter (fun e => e.1 = p)).map
    (fun e => e.2.1)).toFinset).card

/-- `huntd/analytics.py` `compute_file_hotspots`: per-key churn and distinct
touch counts, sorted descending by churn (stable), truncated to `top_n`
(default 15). -/
def compute_file_hotspots (repos : List RepoInfo) (top_n : ℕ := 15) :
    List FileHotspot :=
  (sortByDesc (fun hs => hs.churn)
    ((firstOccur ((hotspotEntries repos).map (fun e => e.1))).map
      (fun p => ⟨p, churnOf repos p, touchesOf repos p⟩))).take top_n

/-- The scenario repo of C9: repo "r" with two changes to "hot.py" of sizes
100 and 200 under distinct hashes. -/
def ceHotspotRepo : RepoInfo :=
  { name := "r",
    file_changes :=
      [ { hash := "h1", day := 0, path := "hot.py", ext := ".py",
          added := 60, removed := 40 },
        { hash := "h2", day := 0, path := "hot.py", ext := ".py",
          added := 150, removed := 50 } ] }

/-- C9: every returned hotspot carries the accumulated churn and the distinct
touch count of its key, the result is sorted descending by churn and holds at
most `top_n` entries; and the scenario — repo "r" with two changes to
"hot.py" of sizes 100 and 200 under distinct hashes — yields exactly
`[{path := "r/hot.py", churn := 300, touches := 2}]`. -/
theorem compute_file_hotspots_spec :
    (∀ repos top_n,
      (∀ e ∈ compute_file_hotspots repos top_n,
        e.churn = churnOf repos e.path ∧ e.touches = touchesOf repos e.path) ∧
      (compute_file_hotspots repos top_n).Pairwise
        (fun a b => b.churn ≤ a.churn) ∧
      (compute_file_hotspots repos top_n).length ≤ top_n) ∧
    compute_file_hotspots [ceHotspotRepo] 15
      = [{ path := "r/hot.py", churn := 300, touches := 2 }] := by
  constructor
  · intro repos top_n
    refine ⟨?_, ?_, ?_⟩
    · intro e he
      have he2 := List.mem_of_mem_take he
      have he3 := (sortByDesc_perm (fun hs : FileHotspot => hs.churn) _).mem_iff.1 he2
      rw [List.mem_map] at he3
      obtain ⟨p, _, hpe⟩ := he3
      subst hpe
      exact ⟨rfl, rfl⟩
    · exact (sortByDesc_sorted (fun hs : FileHotspot => hs.churn) _).sublist
        (List.take_sublist _ _)
    · exact List.length_take_le _ _
  · decide

/-- `huntd/analytics.py` `Streaks`. -/
structure Streaks where
  current : ℕ := 0
  longest : ℕ := 0
  today_commits : ℕ := 0
deriving DecidableEq, Repr

/-- `sorted(dates)`: the distinct commit days sorted ascending. -/
def sortedDates (commits : List Commit) : List ℤ :=
  sortAsc (firstOccur (commits.map (fun c => c.day)))

/-- The `for i in range(1, len(sorted_dates))` loop of `compute_streaks`:
`prev` is `sorted_dates[i-1]`, `lg` the best streak so far, `run` the current
run length. -/
def longestFold (prev : ℤ) (lg run : ℕ) : List ℤ → ℕ
  | [] => lg
  | d :: ds =>
    if d - prev = 1 then longestFold d (max lg (run + 1)) (run + 1) ds
    else longestFold d lg 1 ds

/-- `longest` of `compute_streaks`: 1-initialised fold over the sorted
dates. -/
def longestStreak : List ℤ → ℕ
  | [] => 0
  | d :: ds => longestFold d 1 1 ds

/-- The `while check in dates` loop of `compute_streaks`, with explicit fuel.
Each successful iteration consumes a distinct member of `dates`, so the loop
runs at most `dates.length` times and fuel `dates.length + 1` never binds
(`walkBack_le_length` below makes this precise). -/
def walkBack (dates : List ℤ) : ℕ → ℤ → ℕ
  | 0, _ => 0
  | fuel + 1, check =>
    if check ∈ dates then walkBack dates fuel (check - 1) + 1 else 0

/-- `current` of `compute_streaks`: walk backward from today, or from
yesterday when today is absent. -/
def currentStreak (today : ℤ) (dates : List ℤ) : ℕ :=
  walkBack dates (dates.length + 1) (if today ∈ dates then today else today - 1)

/-- `huntd/analytics.py` `compute_streaks`. -/
def compute_streaks (today : ℤ) (all_commits : List Commit) : Streaks :=
  if all_commits = [] then {}
  else
    { current := currentStreak today (sortedDates all_commits),
      longest := longestStreak (sortedDates all_commits),
      today_commits := all_commits.countP (fun c => c.day = today) }

theorem walkBack_mem (dates : List ℤ) (fuel : ℕ) :
    ∀ (check : ℤ) (i : ℕ), i < walkBack dates fuel check →
      check - (i : ℤ) ∈ dates := by
  induction fuel with
  | zero =>
    intro check i hi
    rw [walkBack] at hi
    omega
  | succ fuel ih =>
    intro check i hi
    rw [walkBack] at hi
    split_ifs at hi with hmem
    · cases i with
      | zero => simpa using hmem
      | succ j =>
        have hj := ih (check - 1) j (by omega)
        have heq : check - ((j + 1 : ℕ) : ℤ) = check - 1 - (j : ℤ) := by
          push_cast
          ring
        rw [heq]
        exact hj
    · omega

theorem walkBack_le_length (dates : List ℤ) (fuel : ℕ) (check : ℤ) :
    walkBack dates fuel check ≤ dates.length := by
  set n := walkBack dates fuel check with hn
  by_contra hlt
  push_neg at hlt
  have hmem : ∀ i : ℕ, i < n → check - (i : ℤ) ∈ dates :=
    walkBack_mem dates fuel check
  have hcard : ((Finset.range n).image (fun i : ℕ => check - (i : ℤ))).card = n := by
    rw [Finset.card_image_of_injective _ (fun a b hab => by omega)]
    exact Finset.card_range n
  have hsub : (Finset.range n).image (fun i : ℕ => check - (i : ℤ))
      ⊆ dates.toFinset := by
    intro y hy
    rw [Finset.mem_image] at hy
    obtain ⟨i, hi, rfl⟩ := hy
    rw [List.mem_toFinset]
    exact hmem i (Finset.mem_range.1 hi)
  have := Finset.card_le_card hsub
  have htf := dates.toFinset_card_le
  omega

theorem longestFold_ge (l : List ℤ) :
    ∀ (prev : ℤ) (lg run : ℕ), lg ≤ longestFold prev lg run l := by
  induction l with
  | nil =>
    intro prev lg run
    rw [longestFold]
  | cons d ds ih =>
    intro prev lg run
    rw [longestFold]
    split_ifs
    · exact le_trans (le_max_left _ _) (ih d _ _)
    · exact ih d _ _

theorem longestFold_extend (m : ℕ) :
    ∀ (t : List ℤ) (x : ℤ) (lg run : ℕ),
      t.Pairwise (· < ·) → (∀ y ∈ t, x < y) →
      (∀ i : ℕ, 1 ≤ i → i ≤ m → x + (i : ℤ) ∈ t) → run ≤ lg →
      run + m ≤ longestFold x lg run t := by
  induction m with
  | zero =>
    intro t x lg run _ _ _ hrl
    have := longestFold_ge t x lg run
    omega
  | succ m ih =>
    intro t x lg run hs hgt hblock hrl
    have hx1 : x + (1 : ℤ) ∈ t := by
      simpa using hblock 1 (le_refl 1) (by omega)
    obtain ⟨b, t', rfl⟩ := List.exists_cons_of_ne_nil (List.ne_nil_of_mem hx1)
    have hb : b = x + 1 := by
      rcases List.mem_cons.1 hx1 with h | h
      · omega
      · have hbx : x < b := hgt b (List.mem_cons_self _ _)
        have hlt : b < x + 1 := (List.pairwise_cons.1 hs).1 _ h
        omega
    subst hb
    rw [longestFold, if_pos (by omega)]
    have hblock2 : ∀ i : ℕ, 1 ≤ i → i ≤ m → (x + 1) + (i : ℤ) ∈ t' := by
      intro i h1 hm
      have hmem : x + ((i + 1 : ℕ) : ℤ) ∈ (x + 1) :: t' :=
        hblock (i + 1) (by omega) (by omega)
      rcases List.mem_cons.1 hmem with h | h
      · exfalso
        push_cast at h
        omega
      · have heq : (x + 1) + (i : ℤ) = x + ((i + 1 : ℕ) : ℤ) := by
          push_cast
          ring
        rw [heq]
        exact h
    have hrec := ih t' (x + 1) (max lg (run + 1)) (run + 1)
      (List.pairwise_cons.1 hs).2 (List.pairwise_cons.1 hs).1 hblock2
      (le_max_right _ _)
    omega

theorem longestFold_block (t : List ℤ) :
    ∀ (p : ℤ) (lg run : ℕ) (x : ℤ) (n : ℕ),
      t.Pairwise (· < ·) → (∀ y ∈ t, p < y) →
      (∀ i : ℕ, i < n → x + (i : ℤ) ∈ t) → 1 ≤ n → run ≤ lg → 1 ≤ run →
      n ≤ longestFold p lg run t := by
  induction t with
  | nil =>
    intro p lg run x n _ _ hblock hn _ _
    have := hblock 0 (by omega)
    simp at this
  | cons b t' ih =>
    intro p lg run x n hs hgt hblock hn hrl hr1
    have hx : x ∈ b :: t' := by simpa using hblock 0 (by omega)
    have hbx : b ≤ x := by
      rcases List.mem_cons.1 hx with h | h
      · omega
      · exact le_of_lt ((List.pairwise_cons.1 hs).1 _ h)
    have hblock' : ∀ i : ℕ, 1 ≤ i → i ≤ n - 1 → x + (i : ℤ) ∈ t' := by
      intro i h1 hm
      have hmem := hblock i (by omega)
      rcases List.mem_cons.1 hmem with h | h
      · exfalso
        omega
      · exact h
    rcases eq_or_lt_of_le hbx with heq | hblt
    · subst heq
      rw [longestFold]
      split_ifs with hd
      · have := longestFold_extend (n - 1) t' b (max lg (run + 1)) (run + 1)
          (List.pairwise_cons.1 hs).2 (List.pairwise_cons.1 hs).1 hblock'
          (le_max_right _ _)
        omega
      · have h1lg : 1 ≤ lg := le_trans hr1 hrl
        have := longestFold_extend (n - 1) t' b lg 1
          (List.pairwise_cons.1 hs).2 (List.pairwise_cons.1 hs).1 hblock'
          h1lg
        omega
    · have hblockt : ∀ i : ℕ, i < n → x + (i : ℤ) ∈ t' := by
        intro i hi
        have hmem := hblock i hi
        rcases List.mem_cons.1 hmem with h | h
        · exfalso
          omega
        · exact h
      rw [longestFold]
      split_ifs with hd
      · exact ih b (max lg (run + 1)) (run + 1) x n
          (List.pairwise_cons.1 hs).2 (List.pairwise_cons.1 hs).1 hblockt hn
          (le_max_right _ _) (by omega)
      · have h1lg : 1 ≤ lg := le_trans hr1 hrl
        exact ih b lg 1 x n
          (List.pairwise_cons.1 hs).2 (List.pairwise_cons.1 hs).1 hblockt hn
          h1lg (le_refl 1)

theorem currentStreak_le_longest (today : ℤ) (dates : List ℤ)
    (hs : dates.Pairwise (· < ·)) :
    currentStreak today dates ≤ longestStreak dates := by
  set check := if today ∈ dates then today else today - 1 with hcheck
  set n := currentStreak today dates with hn
  rcases Nat.eq_zero_or_pos n with h0 | hpos
  · omega
  · have hmem : ∀ i : ℕ, i < n → check - (i : ℤ) ∈ dates := by
      intro i hi
      exact walkBack_mem dates (dates.length + 1) check i hi
    set x : ℤ := check - (n : ℤ) + 1 with hx
    have hblock : ∀ i : ℕ, i < n → x + (i : ℤ) ∈ dates := by
      intro i hi
      obtain ⟨j, hj1, hj2⟩ : ∃ j : ℕ, (j : ℤ) = (n : ℤ) - 1 - (i : ℤ) ∧ j < n :=
        ⟨n - 1 - i, by omega, by omega⟩
      have hjm := hmem j hj2
      have heq : x + (i : ℤ) = check - (j : ℤ) := by omega
      rw [heq]
      exact hjm
    have hx0 : x ∈ dates := by
      have := hblock 0 (by omega)
      simpa using this
    obtain ⟨a, t, hat⟩ := List.exists_cons_of_ne_nil (List.ne_nil_of_mem hx0)
    rw [hat] at hs hblock hx0 ⊢
    have hls : longestStreak (a :: t) = longestFold a 1 1 t := rfl
    rw [hls]
    have hax : a ≤ x := by
      rcases List.mem_cons.1 hx0 with h | h
      · omega
      · exact le_of_lt ((List.pairwise_cons.1 hs).1 _ h)
    rcases eq_or_lt_of_le hax with heq | hlt
    · have hblock' : ∀ i : ℕ, 1 ≤ i → i ≤ n - 1 → a + (i : ℤ) ∈ t := by
        intro i h1 hm
        have hmem2 := hblock i (by omega)
        rw [← heq] at hmem2
        rcases List.mem_cons.1 hmem2 with h | h
        · exfalso
          omega
        · exact h
      have := longestFold_extend (n - 1) t a 1 1
        (List.pairwise_cons.1 hs).2 (List.pairwise_cons.1 hs).1 hblock'
        (le_refl 1)
      omega
    · have hblockt : ∀ i : ℕ, i < n → x + (i : ℤ) ∈ t := by
        intro i hi
        have hmem2 := hblock i hi
        rcases List.mem_cons.1 hmem2 with h | h
        · exfalso
          omega
        · exact h
      exact longestFold_block t a 1 1 x n
        (List.pairwise_cons.1 hs).2 (List.pairwise_cons.1 hs).1 hblockt
        (by omega) (le_refl 1) (le_refl 1)

theorem sortAsc_nodup (l : List ℤ) (h : l.Nodup) : (sortAsc l).Nodup :=
  (sortAsc_perm l).nodup_iff.2 h

theorem sortAsc_sorted_lt (l : List ℤ) (h : l.Nodup) :
    (sortAsc l).Pairwise (· < ·) :=
  ((sortAsc_sorted l).and (sortAsc_nodup l h)).imp
    (fun hab => lt_of_le_of_ne hab.1 hab.2)

theorem sortedDates_sorted_lt (commits : List Commit) :
    (sortedDates commits).Pairwise (· < ·) :=
  sortAsc_sorted_lt _ (nodup_firstOccur _)

/-- C3: for every commit list the current streak (backward day-by-day walk
from today, or yesterday when today has no commit) never exceeds the longest
run of consecutive dates, and empty input gives 0 for both. -/
theorem compute_streaks_spec (today : ℤ) (commits : List Commit) :
    (compute_streaks today commits).current
        ≤ (compute_streaks today commits).longest ∧
    (commits = [] → (compute_streaks today commits).current = 0 ∧
      (compute_streaks today commits).longest = 0) := by
  constructor
  · by_cases hne : commits = []
    · subst hne
      rw [compute_streaks, if_pos rfl]
    · rw [compute_streaks, if_neg hne]
      exact currentStreak_le_longest today _ (sortedDates_sorted_lt commits)
  · intro he
    subst he
    rw [compute_streaks, if_pos rfl]
    exact ⟨rfl, rfl⟩

/-- The heatmap window anchor: today aligned back to its Monday, then
`weeks - 1` further weeks back
(`today - timedelta(days=today.weekday(), weeks=weeks - 1)`). -/
def heatmapStart (today : ℤ) (weeks : ℕ) : ℤ :=
  today - weekdayOf today - 7 * ((weeks : ℤ) - 1)

/-- Commits on day `d` (`counts[d]`). -/
def countDay (commits : List Commit) (d : ℤ) : ℕ :=
  commits.countP (fun c => c.day = d)

/-- `huntd/analytics.py` `compute_heatmap`: 7 rows (Monday..Sunday) of `weeks`
columns; a cell holds the commit count of its day when that day is not after
today, else 0. -/
def compute_heatmap (today : ℤ) (commits : List Commit) (weeks : ℕ) :
    List (List ℕ) :=
  (List.range 7).map (fun (dow : ℕ) =>
    (List.range weeks).map (fun (week : ℕ) =>
      if heatmapStart today weeks + 7 * (week : ℤ) + (dow : ℤ) ≤ today
      then countDay commits (heatmapStart today weeks + 7 * (week : ℤ) + (dow : ℤ))
      else 0))

theorem list_sum_range (f : ℕ → ℕ) (n : ℕ) :
    ((List.range n).map f).sum = Finset.sum (Finset.range n) f := by
  induction n with
  | zero => simp
  | succ n ih => simp [List.range_succ, Finset.sum_range_succ, ih]

theorem sum_range_add (f : ℕ → ℕ) (m n : ℕ) :
    Finset.sum (Finset.range (m + n)) f
      = Finset.sum (Finset.range m) f
        + Finset.sum (Finset.range n) (fun j => f (m + j)) := by
  induction n with
  | zero => simp
  | succ n ih =>
    rw [show m + (n + 1) = (m + n) + 1 from rfl, Finset.sum_range_succ, ih,
      Finset.sum_range_succ]
    omega

theorem grid_eq (g : ℤ → ℕ) (s : ℤ) (weeks : ℕ) :
    Finset.sum (Finset.range weeks) (fun week =>
      Finset.sum (Finset.range 7) (fun dow => g (s + 7 * (week : ℤ) + (dow : ℤ))))
      = Finset.sum (Finset.range (7 * weeks)) (fun k => g (s + (k : ℤ))) := by
  induction weeks with
  | zero => simp
  | succ W ih =>
    rw [Finset.sum_range_succ, ih, show 7 * (W + 1) = 7 * W + 7 from by ring,
      sum_range_add]
    congr 1
    refine Finset.sum_congr rfl ?_
    intro j _
    congr 1
    push_cast
    ring

theorem sum_indicator_range (s today : ℤ) (N : ℕ) (d : ℤ) :
    Finset.sum (Finset.range N)
        (fun k => if s + (k : ℤ) ≤ today ∧ d = s + (k : ℤ) then 1 else 0)
      = if s ≤ d ∧ d ≤ today ∧ d < s + (N : ℤ) then 1 else 0 := by
  induction N with
  | zero =>
    simp only [Finset.range_zero, Finset.sum_empty]
    split_ifs with h
    · omega
    · rfl
  | succ N ih =>
    rw [Finset.sum_range_succ, ih]
    split_ifs <;> omega

theorem sum_count_window (commits : List Commit) (s today : ℤ) (N : ℕ) :
    Finset.sum (Finset.range N)
        (fun k => if s + (k : ℤ) ≤ today then countDay commits (s + (k : ℤ)) else 0)
      = commits.countP
          (fun c => s ≤ c.day ∧ c.day ≤ today ∧ c.day < s + (N : ℤ)) := by
  induction commits with
  | nil =>
    have h0 : ∀ d : ℤ, countDay ([] : List Commit) d = 0 := fun d => rfl
    simp [h0]
  | cons c cs ih =>
    have hsplit : ∀ k : ℕ,
        (if s + (k : ℤ) ≤ today then countDay (c :: cs) (s + (k : ℤ)) else 0)
          = (if s + (k : ℤ) ≤ today then countDay cs (s + (k : ℤ)) else 0)
            + (if s + (k : ℤ) ≤ today ∧ c.day = s + (k : ℤ) then 1 else 0) := by
      intro k
      rw [countDay, List.countP_cons, ← countDay]
      by_cases h1 : s + (k : ℤ) ≤ today
      · by_cases h2 : c.day = s + (k : ℤ)
        · simp [h1, h2]
        · simp [h1, h2]
      · simp [h1]
    have h1 : Finset.sum (Finset.range N)
        (fun k => if s + (k : ℤ) ≤ today then countDay (c :: cs) (s + (k : ℤ)) else 0)
        = Finset.sum (Finset.range N)
            (fun k => (if s + (k : ℤ) ≤ today then countDay cs (s + (k : ℤ)) else 0)
              + (if s + (k : ℤ) ≤ today ∧ c.day = s + (k : ℤ) then 1 else 0)) :=
      Finset.sum_congr rfl (fun k _ => hsplit k)
    rw [h1, Finset.sum_add_distrib, ih, sum_indicator_range, List.countP_cons]
    by_cases hc : s ≤ c.day ∧ c.day ≤ today ∧ c.day < s + (N : ℤ)
    · simp [hc]
    · simp [hc]

theorem weekdayOf_bounds (d : ℤ) : 0 ≤ weekdayOf d ∧ weekdayOf d < 7 :=
  ⟨Int.emod_nonneg _ (by norm_num), Int.emod_lt_of_pos _ (by norm_num)⟩

/-- C2: the heatmap is exactly 7 rows of `weeks` columns; every cell whose
date is after today is 0; and the cells sum to the number of commits whose
local day lies in the populated window, from the start anchor (`weeks - 1`
weeks before the Monday of the current week) through today. -/
theorem compute_heatmap_spec (today : ℤ) (commits : List Commit) (weeks : ℕ) :
    (compute_heatmap today commits weeks).length = 7 ∧
    (∀ row ∈ compute_heatmap today commits weeks, row.length = weeks) ∧
    (∀ dow week : ℕ, dow < 7 → week < weeks →
      today < heatmapStart today weeks + 7 * (week : ℤ) + (dow : ℤ) →
      ((compute_heatmap today commits weeks).getD dow []).getD week 0 = 0) ∧
    ((compute_heatmap today commits weeks).map List.sum).sum
      = commits.countP
          (fun c => heatmapStart today weeks ≤ c.day ∧ c.day ≤ today) := by
  refine ⟨by simp [compute_heatmap], ?_, ?_, ?_⟩
  · intro row hrow
    rw [compute_heatmap, List.mem_map] at hrow
    obtain ⟨dow, _, hrow⟩ := hrow
    rw [← hrow]
    simp
  · intro dow week hdow hweek hfut
    have hrow : (compute_heatmap today commits weeks).getD dow []
        = (List.range weeks).map (fun (week : ℕ) =>
            if heatmapStart today weeks + 7 * (week : ℤ) + (dow : ℤ) ≤ today
            then countDay commits
              (heatmapStart today weeks + 7 * (week : ℤ) + (dow : ℤ))
            else 0) := by
      rw [compute_heatmap, List.getD_eq_getElem?_getD, List.getElem?_map,
        List.getElem?_range hdow]
      rfl
    rw [hrow, List.getD_eq_getElem?_getD, List.getElem?_map,
      List.getElem?_range hweek]
    dsimp only [Option.map, Option.getD]
    rw [if_neg (by omega)]
  · have hcell : compute_heatmap today commits weeks
        = (List.range 7).map (fun (dow : ℕ) =>
            (List.range weeks).map (fun (week : ℕ) =>
              (fun d => if d ≤ today then countDay commits d else 0)
                (heatmapStart today weeks + 7 * (week : ℤ) + (dow : ℤ)))) := rfl
    rw [hcell, List.map_map]
    have hcomp : (List.sum ∘ fun (dow : ℕ) => (List.range weeks).map (fun (week : ℕ) =>
        (fun d => if d ≤ today then countDay commits d else 0)
          (heatmapStart today weeks + 7 * (week : ℤ) + (dow : ℤ))))
        = fun (dow : ℕ) => Finset.sum (Finset.range weeks) (fun (week : ℕ) =>
            (fun d => if d ≤ today then countDay commits d else 0)
              (heatmapStart today weeks + 7 * (week : ℤ) + (dow : ℤ))) := by
      funext dow
      exact list_sum_range _ _
    rw [hcomp, list_sum_range, Finset.sum_comm,
      grid_eq (fun d => if d ≤ today then countDay commits d else 0)
        (heatmapStart today weeks) weeks,
      sum_count_window commits (heatmapStart today weeks) today (7 * weeks)]
    refine List.countP_congr ?_
    intro c _
    have hb := weekdayOf_bounds today
    constructor
    · intro hc
      simp only [decide_eq_true_eq] at hc ⊢
      exact ⟨hc.1, hc.2.1⟩
    · intro hc
      simp only [decide_eq_true_eq] at hc ⊢
      refine ⟨hc.1, hc.2, ?_⟩
      rw [heatmapStart] at hc ⊢
      omega

/-- Witness for C2's future-cell clause: with today = 10 (a Wednesday) and one
week, the Sunday cell (day 14) is in the future and stays 0. -/
theorem compute_heatmap_spec_witness :
    ((compute_heatmap 10 ([] : List Commit) 1).getD 6 []).getD 0 0 = 0 :=
  (compute_heatmap_spec 10 [] 1).2.2.1 6 0 (by decide) (by decide) (by decide)

/-- Witness for C3's empty-input clause. -/
theorem compute_streaks_spec_witness :
    (compute_streaks 0 ([] : List Commit)).current = 0 ∧
    (compute_streaks 0 ([] : List Commit)).longest = 0 :=
  (compute_streaks_spec 0 []).2 rfl

/-- Witness for C9's per-entry clause at the scenario input. -/
theorem compute_file_hotspots_spec_witness :
    ({ path := "r/hot.py", churn := 300, touches := 2 } : FileHotspot).churn
        = churnOf [ceHotspotRepo]
            ({ path := "r/hot.py", churn := 300, touches := 2 } : FileHotspot).path ∧
    ({ path := "r/hot.py", churn := 300, touches := 2 } : FileHotspot).touches
        = touchesOf [ceHotspotRepo]
            ({ path := "r/hot.py", churn := 300, touches := 2 } : FileHotspot).path :=
  (compute_file_hotspots_spec.1 [ceHotspotRepo] 15).1 _ (by decide)

end Huntd
